import Mathlib

/-!
Verification development for the FFT filter plugin (src/fft_filter.cpp).

The plugin buffers samples per channel (datapoint name) for readings whose
asset name matches the configured asset, and when a channel buffer reaches
the configured window length it runs an FFT over the window, averages the
bin magnitudes into frequency bands and emits a derived reading.

Modelling choices:
* Doubles and floats are modelled as exact rationals; none of the
  properties below depend on rounding.
* The FFT kernel itself is an external library routine (declared in the
  plugin headers, not part of this translation unit).  The post-transform
  banding logic is agnostic to how the per-bin magnitudes arise, so the
  development is parametrised over a function
  FFT_abs : List Rat -> Nat -> Rat giving, for a window of samples, the
  magnitude sqrt(re^2 + im^2) of each output bin.
* The C++ integral configuration members hold values produced by strtol;
  every scenario modelled by the spec and claims keeps them nonnegative,
  so they are carried as Nat (strtol results are clamped through Int.toNat
  when stored; no modelled scenario produces a negative value).
* Integer division by zero in C++ is undefined behaviour: the path of
  runFFT that would divide by m_bands = 0 is modelled as returning none,
  and none propagates through processFFT and ingest.
* std::map iterates channels in key order; the buffer is modelled as an
  association list iterated in list order.  No property below depends on
  the iteration order of distinct channels.
-/


/-- A datapoint value carried by a reading: the C++ DatapointValue type
tags, with all non-numeric payloads collapsed into T_OTHER (the code
ignores them). -/
inductive DatapointValue where
  | T_FLOAT : ℚ → DatapointValue
  | T_INTEGER : Int → DatapointValue
  | T_OTHER : DatapointValue
deriving DecidableEq

/-- A named datapoint of a reading. -/
structure Datapoint where
  name : String
  data : DatapointValue
deriving DecidableEq

/-- A reading: an asset name and its list of datapoints. -/
structure Reading where
  assetName : String
  readingData : List Datapoint
deriving DecidableEq

/-- The engine configuration members of FFTFilter. -/
structure Config where
  asset : String
  bands : Nat
  samples : Nat
  lowPass : Nat
  highPass : Nat
deriving DecidableEq

/-- The per-channel sample buffer m_buffer: an association list from
datapoint name to the accumulated samples. -/
abbrev Buffer := List (String × List ℚ)

/-- The numeric value the filter extracts from a datapoint:
floats and integers are eligible, anything else is skipped
(addFFTAsset, src/fft_filter.cpp lines 82-87). -/
def dpValue : DatapointValue → Option ℚ
  | .T_FLOAT q => some q
  | .T_INTEGER n => some (n : ℚ)
  | .T_OTHER => none

/-- Append a value for a channel: find the entry and push_back, or insert
a fresh singleton buffer (addFFTAsset, lines 88-98). -/
def bufferAppend (buf : Buffer) (name : String) (v : ℚ) : Buffer :=
  match buf with
  | [] => [(name, [v])]
  | (n, vs) :: rest =>
      if n = name then (n, vs ++ [v]) :: rest
      else (n, vs) :: bufferAppend rest name v

/-- FFTFilter::addFFTAsset - append every eligible datapoint value of the
reading to its channel buffer, in datapoint order. -/
def addFFTAsset (buf : Buffer) (r : Reading) : Buffer :=
  r.readingData.foldl
    (fun b dp =>
      match dpValue dp.data with
      | some v => bufferAppend b dp.name v
      | none => b)
    buf

/-- Lookup of a channel buffer, the semantics of m_buffer.find. -/
def bufLookup (c : String) : Buffer → Option (List ℚ)
  | [] => none
  | (n, vs) :: rest => if n = c then some vs else bufLookup c rest

/-- Length of the buffer held for a channel (0 when no entry exists). -/
def bufSize (c : String) (buf : Buffer) : Nat :=
  ((bufLookup c buf).getD []).length

/-- The band label written by snprintf(buf, sizeof(buf), "Band %02d", band):
the index zero-padded to width two. -/
def bandLabel (band : Nat) : String :=
  if band < 10 then "Band 0" ++ toString band else "Band " ++ toString band

/-- The mutable loop state of the banding loop of runFFT
(lines 159-199): accumulated datapoints, running band sum and count,
next band index, and the running peak magnitude and its bin. -/
structure BandState where
  datapoints : List (String × ℚ)
  sum : ℚ
  cnt : Nat
  band : Nat
  peak : ℚ
  peakf : Nat
deriving DecidableEq

/-- Initial loop state of runFFT: empty datapoints, sum 0, cnt 0,
band 0, peak 0.0, peakf 0. -/
def initBandState : BandState := ⟨[], 0, 0, 0, 0, 0⟩

/-- One iteration of the banding loop of runFFT for bin i (lines 173-199):
update the peak, accumulate the magnitude, and when the count reaches
aveSamples emit a band datapoint holding the mean and reset. -/
def bandStep (aveSamples : Nat) (mag : Nat → ℚ) (s : BandState) (i : Nat) :
    BandState :=
  let absValue := mag i
  let peak' := if s.peak < absValue then absValue else s.peak
  let peakf' := if s.peak < absValue then i else s.peakf
  let sum' := s.sum + absValue
  let cnt' := s.cnt + 1
  if cnt' = aveSamples then
    ⟨s.datapoints ++ [(bandLabel s.band, sum' / (aveSamples : ℚ))],
      0, 0, s.band + 1, peak', peakf'⟩
  else
    ⟨s.datapoints, sum', cnt', s.band, peak', peakf'⟩

/-- n_outputs = values->size() / 2 (line 160): the one-sided spectrum
length. -/
def n_outputs (values : List ℚ) : Nat := values.length / 2

/-- first = (m_lowPass * n_outputs) / 100 (line 161). -/
def firstBin (cfg : Config) (values : List ℚ) : Nat :=
  cfg.lowPass * n_outputs values / 100

/-- last = n_outputs - (m_highPass * n_outputs) / 100 (line 162). -/
def lastBin (cfg : Config) (values : List ℚ) : Nat :=
  n_outputs values - cfg.highPass * n_outputs values / 100

/-- aveSamples = (last - first) / m_bands (line 163).  Meaningful only
when cfg.bands is nonzero; the callers guard that case. -/
def aveSamplesOf (cfg : Config) (values : List ℚ) : Nat :=
  (lastBin cfg values - firstBin cfg values) / cfg.bands

/-- The banding loop of runFFT run over the trimmed bin range
[first, last) with the given per-bin magnitudes. -/
def bandRun (mag : Nat → ℚ) (cfg : Config) (values : List ℚ) : BandState :=
  (List.range' (firstBin cfg values) (lastBin cfg values - firstBin cfg values)).foldl
    (bandStep (aveSamplesOf cfg values) mag) initBandState

/-- The reading runFFT pushes to the output (line 202): asset name
suffixed with " FFT" and the band datapoints as floats.  The peak
datapoint is constructed (line 200) but its push_back is commented out
(line 201), so only the band datapoints are attached. -/
def mkFFTReading (FFT_abs : List ℚ → Nat → ℚ) (cfg : Config)
    (values : List ℚ) : Reading :=
  ⟨cfg.asset ++ " FFT",
    (bandRun (FFT_abs values) cfg values).datapoints.map
      (fun p => ⟨p.1, DatapointValue.T_FLOAT p.2⟩)⟩

/-- FFTFilter::runFFT.  With m_bands = 0 the computation of aveSamples
performs an integer division by zero, which is undefined behaviour in
C++: that path is modelled as none.  Otherwise the emitted reading is
returned.  The dpName argument mirrors the C++ signature; the emitted
reading does not mention it. -/
def runFFT (FFT_abs : List ℚ → Nat → ℚ) (cfg : Config) (dpName : String)
    (values : List ℚ) : Option Reading :=
  if cfg.bands = 0 then none
  else some (mkFFTReading FFT_abs cfg values)

/-- FFTFilter::processFFT - scan every channel buffer; a buffer whose
size equals m_samples is run through runFFT and cleared in place.  The
emitted readings are tagged with the channel they came from (the dpName
argument of the runFFT call). -/
def processFFT (FFT_abs : List ℚ → Nat → ℚ) (cfg : Config) :
    Buffer → Option (Buffer × List (String × Reading))
  | [] => some ([], [])
  | (name, vs) :: rest =>
      if vs.length = cfg.samples then
        match runFFT FFT_abs cfg name vs with
        | none => none
        | some r =>
            match processFFT FFT_abs cfg rest with
            | none => none
            | some (rest', outs) => some ((name, []) :: rest', (name, r) :: outs)
      else
        match processFFT FFT_abs cfg rest with
        | none => none
        | some (rest', outs) => some ((name, vs) :: rest', outs)

/-- An element of the output vector of ingest: either an input reading
passed through unchanged, or a derived FFT reading (tagged with the
channel whose window produced it). -/
inductive OutRec where
  | pass : Reading → OutRec
  | fft : String → Reading → OutRec
deriving DecidableEq

/-- FFTFilter::ingest - for each reading in order: a reading whose asset
name equals m_asset is consumed by addFFTAsset and processFFT runs right
after it; any other reading is pushed to the output unchanged.  The
result carries the final buffer, the output vector and the number of
processFFT invocations made during the call; none models the undefined
behaviour path of runFFT. -/
def ingest (FFT_abs : List ℚ → Nat → ℚ) (cfg : Config) (buf : Buffer) :
    List Reading → Option (Buffer × List OutRec × Nat)
  | [] => some (buf, [], 0)
  | r :: rest =>
      if r.assetName = cfg.asset then
        match processFFT FFT_abs cfg (addFFTAsset buf r) with
        | none => none
        | some (buf1, outs) =>
            match ingest FFT_abs cfg buf1 rest with
            | none => none
            | some (buf2, out, k) =>
                some (buf2, outs.map (fun e => OutRec.fft e.1 e.2) ++ out, k + 1)
      else
        match ingest FFT_abs cfg buf rest with
        | none => none
        | some (buf1, out, k) => some (buf1, OutRec.pass r :: out, k)

/-- Digit-run accumulator of strtol: consume leading decimal digits. -/
def strtolDigits : List Char → Nat → Nat
  | [], acc => acc
  | c :: cs, acc =>
      if c.isDigit then strtolDigits cs (acc * 10 + (c.toNat - 48)) else acc

/-- strtol(s, NULL, 10): skip leading whitespace, honour an optional
sign, and read the longest run of decimal digits; a string with no
leading digits yields 0. -/
def strtolChars : List Char → Int
  | [] => 0
  | c :: cs =>
      if c = ' ' ∨ c = '\t' ∨ c = '\n' then strtolChars cs
      else if c = '-' then -(strtolDigits cs 0 : Int)
      else if c = '+' then (strtolDigits cs 0 : Int)
      else (strtolDigits (c :: cs) 0 : Int)

/-- strtol applied to a configuration value string. -/
def strtol (s : String) : Int := strtolChars s.data

/-- The present string values of a configuration category, one optional
entry per item handleConfig looks at (itemExists / getValue). -/
structure RawConfig where
  asset : Option String
  bands : Option String
  samples : Option String
  lowPass : Option String
  highPass : Option String

/-- FFTFilter::handleConfig - each present item overwrites the matching
member, numeric members through strtol; absent items leave the prior
value untouched.  No validation or rejection is performed. -/
def handleConfig (cfg : Config) (rc : RawConfig) : Config :=
  let c1 := match rc.asset with
    | some v => { cfg with asset := v }
    | none => cfg
  let c2 := match rc.bands with
    | some v => { c1 with bands := (strtol v).toNat }
    | none => c1
  let c3 := match rc.samples with
    | some v => { c2 with samples := (strtol v).toNat }
    | none => c2
  let c4 := match rc.lowPass with
    | some v => { c3 with lowPass := (strtol v).toNat }
    | none => c3
  match rc.highPass with
  | some v => { c4 with highPass := (strtol v).toNat }
  | none => c4

/-- The full filter state: configuration members plus the channel
buffers. -/
structure FilterState where
  cfg : Config
  buffer : Buffer
deriving DecidableEq

/-- FFTFilter::reconfigure - replace the configuration through
handleConfig; the channel buffers are not touched. -/
def reconfigure (st : FilterState) (rc : RawConfig) : FilterState :=
  ⟨handleConfig st.cfg rc, st.buffer⟩

/-- A magnitude oracle that is identically zero, used to instantiate
concrete runs where the magnitudes are irrelevant. -/
def magZero : List ℚ → Nat → ℚ := fun _ _ => 0

/-- The channel names present in a buffer, in order. -/
def bufKeys (buf : Buffer) : List String := buf.map Prod.fst

/-- Number of eligible (float or integer) datapoints of a reading that
feed channel c. -/
def eligCount (c : String) (r : Reading) : Nat :=
  r.readingData.countP (fun dp => dp.name == c && (dpValue dp.data).isSome)

/-- The effect of processFFT on one buffer entry: a full buffer is
cleared in place, any other entry is kept. -/
def clearFull (cfg : Config) (e : String × List ℚ) : String × List ℚ :=
  if e.2.length = cfg.samples then (e.1, []) else e

/-- The reading processFFT emits for one buffer entry, tagged with the
channel: present exactly for full buffers. -/
def emitOf (FFT_abs : List ℚ → Nat → ℚ) (cfg : Config)
    (e : String × List ℚ) : Option (String × Reading) :=
  if e.2.length = cfg.samples then some (e.1, mkFFTReading FFT_abs cfg e.2)
  else none

/-- Number of FFT readings in an emission list tagged with channel c. -/
def emitsFor (c : String) (outs : List (String × Reading)) : Nat :=
  outs.countP (fun e => e.1 == c)

/-- Projection selecting the pass-through readings of the output. -/
def passOf : OutRec → Option Reading
  | .pass r => some r
  | .fft _ _ => none

/-- Number of FFT readings in an ingest output tagged with channel c. -/
def fftEmissions (c : String) (out : List OutRec) : Nat :=
  out.countP (fun o => match o with | .fft n _ => n == c | .pass _ => false)

/-- Number of eligible samples a batch appends to channel c: only
readings matching the configured asset contribute. -/
def appended (c : String) (cfg : Config) : List Reading → Nat
  | [] => 0
  | r :: rest =>
      (if r.assetName = cfg.asset then eligCount c r else 0) + appended c cfg rest

/-- The mean of the magnitudes of the b-th complete group of a
consecutive bins counted from bin first. -/
def bandMean (mag : Nat → ℚ) (first a b : Nat) : ℚ :=
  (∑ i ∈ Finset.range a, mag (first + b * a + i)) / (a : ℚ)

/-- The datapoint list accumulated by the banding loop is always a
label-indexed sequence: entry b carries label bandLabel b, and the band
counter equals the number of entries. -/
def labeledInv (s : BandState) : Prop :=
  ∃ f : Nat → ℚ,
    s.datapoints = (List.range s.band).map (fun b => (bandLabel b, f b))

/-- A per-bin magnitude function that is identically zero. -/
def magZeroBin : Nat → ℚ := fun _ => 0

/-- A per-bin magnitude function that is nonzero only at bin 0. -/
def magIndicator : Nat → ℚ := fun i => if i = 0 then 5 else 0

/-- A one-datapoint reading carrying a float sample. -/
def mkRd (asset ch : String) (q : ℚ) : Reading :=
  ⟨asset, [⟨ch, DatapointValue.T_FLOAT q⟩]⟩

/-- Config with 3 bands over a 16-sample window trimmed by 13% and 25%:
the trimmed range holds 5 bins, aveSamples = 1. -/
def cfgC1 : Config := ⟨"A", 3, 16, 13, 25⟩

/-- A 16-sample window. -/
def valsC1 : List ℚ := List.replicate 16 0

/-- Config with 1 band over a 2-sample window. -/
def cfgC2 : Config := ⟨"A", 1, 2, 0, 0⟩

/-- Matching one-sample readings for channel x. -/
def rdA1 : Reading := mkRd "A" "x" 1

def rdA2 : Reading := mkRd "A" "x" 2

/-- A reading for a different asset. -/
def rdB : Reading := mkRd "B" "y" 3

/-- Prior config with 5 bands over a 16-sample window. -/
def cfgPrior : Config := ⟨"A", 5, 16, 0, 0⟩

/-- A reconfiguration request carrying bands = "0". -/
def rcBands0 : RawConfig := ⟨none, some "0", none, none, none⟩

/-- Prior config with 5 bands over a 4-sample window. -/
def cfgPrior2 : Config := ⟨"A", 5, 4, 0, 0⟩

/-- A reconfiguration request carrying a non-numeric bands value. -/
def rcJunk : RawConfig := ⟨none, some "junk", none, none, none⟩

/-- Config with 1 band over a 16-sample window (windows never fill in
two-sample batches). -/
def cfgC8 : Config := ⟨"A", 1, 16, 0, 0⟩

/-- Config asking for 25% low trim on an 8-sample window. -/
def cfgC7 : Config := ⟨"A", 1, 8, 25, 0⟩

/-- An 8-sample window. -/
def valsC7 : List ℚ := List.replicate 8 0

/-- Filter state holding 3 buffered samples for channel x under window
length 8. -/
def stC9 : FilterState := ⟨⟨"A", 1, 8, 0, 0⟩, [("x", [1, 2, 3])]⟩

/-- A reconfiguration request shrinking the window to 4. -/
def rcC9 : RawConfig := ⟨none, none, some "4", none, none⟩

/-- Config asking for 10 bands of a 4-sample window: only 2 trimmed bins
exist, so aveSamples = 0. -/
def cfgC10w : Config := ⟨"A", 10, 4, 0, 0⟩

/-- Config with 0 bands over a 2-sample window. -/
def cfgBands0 : Config := ⟨"A", 0, 2, 0, 0⟩

theorem bufLookup_bufferAppend (buf : Buffer) (n : String) (v : ℚ) (c : String) :
    bufLookup c (bufferAppend buf n v) =
      if c = n then some (((bufLookup c buf).getD []) ++ [v])
      else bufLookup c buf := by
  induction buf with
  | nil =>
      simp only [bufferAppend, bufLookup]
      by_cases h : c = n
      · subst h; simp [bufLookup]
      · have h2 : ¬ (n = c) := fun h3 => h h3.symm
        simp [bufLookup, h, h2]
  | cons e rest ih =>
      obtain ⟨n0, vs⟩ := e
      simp only [bufferAppend]
      by_cases h1 : n0 = n
      · subst h1
        by_cases h2 : c = n0
        · subst h2; simp [bufLookup]
        · have h3 : ¬ (n0 = c) := fun h4 => h2 h4.symm
          simp [bufLookup, h2, h3]
      · rw [if_neg h1]
        by_cases h2 : n0 = c
        · subst h2
          simp [bufLookup, h1]
        · simp [bufLookup, h2, ih]

theorem bufLookup_eq_none_iff (c : String) (buf : Buffer) :
    bufLookup c buf = none ↔ c ∉ bufKeys buf := by
  induction buf with
  | nil => simp [bufLookup, bufKeys]
  | cons e rest ih =>
      obtain ⟨n, vs⟩ := e
      simp only [bufKeys, List.map_cons] at ih ⊢
      by_cases h : n = c
      · subst h; simp [bufLookup]
      · have h2 : ¬ (c = n) := fun h3 => h h3.symm
        simp only [bufLookup, if_neg h, List.mem_cons]
        rw [ih]
        constructor
        · intro h3 h4
          rcases h4 with h5 | h5
          · exact h2 h5
          · exact h3 h5
        · intro h3 h4
          exact h3 (Or.inr h4)

theorem bufKeys_bufferAppend (buf : Buffer) (n : String) (v : ℚ) :
    bufKeys (bufferAppend buf n v) =
      if n ∈ bufKeys buf then bufKeys buf else bufKeys buf ++ [n] := by
  induction buf with
  | nil => simp [bufferAppend, bufKeys]
  | cons e rest ih =>
      obtain ⟨n0, vs⟩ := e
      simp only [bufKeys, List.map_cons] at ih ⊢
      by_cases h : n0 = n
      · subst h
        simp [bufferAppend]
      · have h2 : ¬ (n = n0) := fun h3 => h h3.symm
        simp only [bufferAppend, if_neg h, List.map_cons]
        by_cases h3 : n ∈ List.map Prod.fst rest
        · rw [if_pos h3] at ih
          rw [ih]
          have hm : n ∈ n0 :: List.map Prod.fst rest := List.mem_cons_of_mem _ h3
          rw [if_pos hm]
        · rw [if_neg h3] at ih
          rw [ih]
          have hm : ¬ (n ∈ n0 :: List.map Prod.fst rest) := by
            intro hmem
            rcases List.mem_cons.mp hmem with h4 | h4
            · exact h2 h4
            · exact h3 h4
          rw [if_neg hm]
          simp

theorem bufKeys_bufferAppend_nodup (buf : Buffer) (n : String) (v : ℚ)
    (h : (bufKeys buf).Nodup) : (bufKeys (bufferAppend buf n v)).Nodup := by
  rw [bufKeys_bufferAppend]
  by_cases h2 : n ∈ bufKeys buf <;> simp [h2, List.nodup_append, h]

theorem bufSize_bufferAppend (buf : Buffer) (n : String) (v : ℚ) (c : String) :
    bufSize c (bufferAppend buf n v) =
      bufSize c buf + (if c = n then 1 else 0) := by
  unfold bufSize
  rw [bufLookup_bufferAppend]
  by_cases h : c = n
  · simp [h]
  · simp [h]

theorem bufSize_addFFTAsset (buf : Buffer) (r : Reading) (c : String) :
    bufSize c (addFFTAsset buf r) = bufSize c buf + eligCount c r := by
  unfold addFFTAsset eligCount
  induction r.readingData generalizing buf with
  | nil => simp
  | cons dp dps ih =>
      rw [List.foldl_cons, List.countP_cons, ih]
      cases hdp : dpValue dp.data with
      | none => simp [hdp]
      | some v =>
          rw [bufSize_bufferAppend]
          simp only [hdp, Option.isSome_some, Bool.and_true]
          by_cases h : dp.name = c
          · simp [h, beq_iff_eq]
            omega
          · have h2 : ¬ (c = dp.name) := fun h3 => h h3.symm
            simp [h, h2, beq_iff_eq]

theorem bufKeys_addFFTAsset_nodup (buf : Buffer) (r : Reading)
    (h : (bufKeys buf).Nodup) : (bufKeys (addFFTAsset buf r)).Nodup := by
  unfold addFFTAsset
  induction r.readingData generalizing buf with
  | nil => simpa using h
  | cons dp dps ih =>
      rw [List.foldl_cons]
      cases hdp : dpValue dp.data with
      | none => simp only [hdp]; exact ih _ h
      | some v =>
          simp only [hdp]
          exact ih _ (bufKeys_bufferAppend_nodup _ _ _ h)

theorem processFFT_spec (FFT_abs : List ℚ → Nat → ℚ) (cfg : Config)
    (hb : cfg.bands ≠ 0) (buf : Buffer) :
    processFFT FFT_abs cfg buf =
      some (buf.map (clearFull cfg), buf.filterMap (emitOf FFT_abs cfg)) := by
  induction buf with
  | nil => simp [processFFT]
  | cons e rest ih =>
      obtain ⟨name, vs⟩ := e
      by_cases h : vs.length = cfg.samples
      · simp [processFFT, h, runFFT, hb, ih, clearFull, emitOf]
      · simp [processFFT, h, ih, clearFull, emitOf]

theorem bufKeys_map_clearFull (cfg : Config) (buf : Buffer) :
    bufKeys (buf.map (clearFull cfg)) = bufKeys buf := by
  unfold bufKeys
  rw [List.map_map]
  apply List.map_congr_left
  intro e _
  simp only [Function.comp_apply, clearFull]
  split <;> rfl

theorem clearFull_pos (cfg : Config) (n : String) (vs : List ℚ)
    (h : vs.length = cfg.samples) : clearFull cfg (n, vs) = (n, []) := by
  simp [clearFull, h]

theorem clearFull_neg (cfg : Config) (n : String) (vs : List ℚ)
    (h : ¬ vs.length = cfg.samples) : clearFull cfg (n, vs) = (n, vs) := by
  simp [clearFull, h]

theorem bufLookup_map_clearFull (cfg : Config) (buf : Buffer) (c : String) :
    bufLookup c (buf.map (clearFull cfg)) =
      (bufLookup c buf).map
        (fun vs => if vs.length = cfg.samples then [] else vs) := by
  induction buf with
  | nil => simp [bufLookup]
  | cons e rest ih =>
      obtain ⟨n, vs⟩ := e
      rw [List.map_cons]
      by_cases h2 : vs.length = cfg.samples
      · rw [clearFull_pos cfg n vs h2]
        by_cases h : n = c
        · subst h; simp [bufLookup, h2]
        · simp [bufLookup, h, ih]
      · rw [clearFull_neg cfg n vs h2]
        by_cases h : n = c
        · subst h; simp [bufLookup, h2]
        · simp [bufLookup, h, ih]

theorem bufSize_map_clearFull (cfg : Config) (buf : Buffer) (c : String)
    (hs : 1 ≤ cfg.samples) :
    bufSize c (buf.map (clearFull cfg)) =
      if bufSize c buf = cfg.samples then 0 else bufSize c buf := by
  unfold bufSize
  rw [bufLookup_map_clearFull]
  cases h : bufLookup c buf with
  | none =>
      have h0 : ¬ ((0 : Nat) = cfg.samples) := by omega
      simp [h0]
  | some vs =>
      by_cases h2 : vs.length = cfg.samples <;> simp [h2]

theorem emitOf_pos (FFT_abs : List ℚ → Nat → ℚ) (cfg : Config) (n : String)
    (vs : List ℚ) (h : vs.length = cfg.samples) :
    emitOf FFT_abs cfg (n, vs) = some (n, mkFFTReading FFT_abs cfg vs) := by
  simp [emitOf, h]

theorem emitOf_neg (FFT_abs : List ℚ → Nat → ℚ) (cfg : Config) (n : String)
    (vs : List ℚ) (h : ¬ vs.length = cfg.samples) :
    emitOf FFT_abs cfg (n, vs) = none := by
  simp [emitOf, h]

theorem emitsFor_zero_of_not_mem (FFT_abs : List ℚ → Nat → ℚ) (cfg : Config)
    (c : String) (buf : Buffer) (h : c ∉ bufKeys buf) :
    emitsFor c (buf.filterMap (emitOf FFT_abs cfg)) = 0 := by
  induction buf with
  | nil => simp [emitsFor]
  | cons e rest ih =>
      obtain ⟨n, vs⟩ := e
      simp only [bufKeys, List.map_cons, List.mem_cons] at h
      push_neg at h
      obtain ⟨h1, h2⟩ := h
      have h3 : emitsFor c (rest.filterMap (emitOf FFT_abs cfg)) = 0 :=
        ih (by simpa [bufKeys] using h2)
      by_cases h4 : vs.length = cfg.samples
      · rw [List.filterMap_cons, emitOf_pos FFT_abs cfg n vs h4]
        simp only [emitsFor, List.countP_cons] at h3 ⊢
        have h5 : (n == c) = false := by
          simp [beq_iff_eq]
          exact fun h6 => h1 h6.symm
        simp [h5, h3]
      · rw [List.filterMap_cons, emitOf_neg FFT_abs cfg n vs h4]
        exact h3

theorem emitsFor_filterMap (FFT_abs : List ℚ → Nat → ℚ) (cfg : Config)
    (c : String) (buf : Buffer) (hnodup : (bufKeys buf).Nodup)
    (hs : 1 ≤ cfg.samples) :
    emitsFor c (buf.filterMap (emitOf FFT_abs cfg)) =
      if bufSize c buf = cfg.samples then 1 else 0 := by
  induction buf with
  | nil =>
      have h0 : ¬ ((0 : Nat) = cfg.samples) := by omega
      simp [emitsFor, bufSize, bufLookup, h0]
  | cons e rest ih =>
      obtain ⟨n, vs⟩ := e
      simp only [bufKeys, List.map_cons, List.nodup_cons] at hnodup
      obtain ⟨hn, hrest⟩ := hnodup
      by_cases h : n = c
      · subst h
        have hsz : bufSize n ((n, vs) :: rest) = vs.length := by
          simp [bufSize, bufLookup]
        have hz : emitsFor n (rest.filterMap (emitOf FFT_abs cfg)) = 0 :=
          emitsFor_zero_of_not_mem FFT_abs cfg n rest (by simpa [bufKeys] using hn)
        by_cases h4 : vs.length = cfg.samples
        · rw [List.filterMap_cons, emitOf_pos FFT_abs cfg n vs h4, hsz, if_pos h4]
          simp only [emitsFor] at hz
          simp only [emitsFor, List.countP_cons]
          rw [hz]
          simp
        · rw [List.filterMap_cons, emitOf_neg FFT_abs cfg n vs h4, hsz, if_neg h4]
          exact hz
      · have hsz : bufSize c ((n, vs) :: rest) = bufSize c rest := by
          simp [bufSize, bufLookup, h]
        rw [hsz]
        have ih2 := ih (by simpa [bufKeys] using hrest)
        by_cases h4 : vs.length = cfg.samples
        · rw [List.filterMap_cons, emitOf_pos FFT_abs cfg n vs h4]
          simp only [emitsFor, List.countP_cons] at ih2 ⊢
          have h5 : (n == c) = false := by simp [beq_iff_eq, h]
          simp [h5]
          simpa [emitsFor] using ih2
        · rw [List.filterMap_cons, emitOf_neg FFT_abs cfg n vs h4]
          exact ih2

theorem mem_filterMap_emitOf (FFT_abs : List ℚ → Nat → ℚ) (cfg : Config)
    (buf : Buffer) (c : String) (r : Reading)
    (h : (c, r) ∈ buf.filterMap (emitOf FFT_abs cfg)) :
    ∃ vs : List ℚ, vs.length = cfg.samples ∧ r = mkFFTReading FFT_abs cfg vs := by
  rcases List.mem_filterMap.mp h with ⟨e, _, he⟩
  obtain ⟨n, vs⟩ := e
  by_cases h2 : vs.length = cfg.samples
  · rw [emitOf_pos FFT_abs cfg n vs h2] at he
    simp only [Option.some.injEq, Prod.mk.injEq] at he
    exact ⟨vs, h2, he.2.symm⟩
  · rw [emitOf_neg FFT_abs cfg n vs h2] at he
    cases he

theorem filterMap_passOf_map_fft (outs : List (String × Reading)) :
    (outs.map (fun e => OutRec.fft e.1 e.2)).filterMap passOf = [] := by
  induction outs with
  | nil => rfl
  | cons e rest ih => simp [passOf, ih]

theorem fftEmissions_map_fft_append (c : String)
    (outs : List (String × Reading)) (out : List OutRec) :
    fftEmissions c (outs.map (fun e => OutRec.fft e.1 e.2) ++ out) =
      emitsFor c outs + fftEmissions c out := by
  unfold fftEmissions emitsFor
  rw [List.countP_append, List.countP_map]
  rfl

theorem fftEmissions_pass_cons (c : String) (r : Reading) (out : List OutRec) :
    fftEmissions c (OutRec.pass r :: out) = fftEmissions c out := by
  simp [fftEmissions, List.countP_cons]

/-- Structural behaviour of a whole ingest call under a configuration
whose band count is nonzero (the division by zero of runFFT is not
reached): the call succeeds, processFFT is triggered once per matching
reading, the pass-through output is exactly the non-matching readings in
order, and every FFT output is a reading built by mkFFTReading over a
full window. -/
theorem ingest_structure (FFT_abs : List ℚ → Nat → ℚ) (cfg : Config)
    (hb : cfg.bands ≠ 0) :
    ∀ (readings : List Reading) (buf : Buffer),
      ∃ buf1 out k, ingest FFT_abs cfg buf readings = some (buf1, out, k) ∧
        k = readings.countP (fun r => r.assetName == cfg.asset) ∧
        out.filterMap passOf =
          readings.filter (fun r => !(r.assetName == cfg.asset)) ∧
        (∀ r : Reading, OutRec.pass r ∈ out → ¬ (r.assetName = cfg.asset)) ∧
        (∀ (c : String) (r : Reading), OutRec.fft c r ∈ out →
          ∃ vs : List ℚ, vs.length = cfg.samples ∧
            r = mkFFTReading FFT_abs cfg vs) := by
  intro readings
  induction readings with
  | nil =>
      intro buf
      refine ⟨buf, [], 0, rfl, by simp, by simp, by simp, by simp⟩
  | cons r rest ih =>
      intro buf
      by_cases h : r.assetName = cfg.asset
      · obtain ⟨buf1, out, k, hin, hk, hpass, hpmem, hfft⟩ :=
          ih ((addFFTAsset buf r).map (clearFull cfg))
        refine ⟨buf1,
          ((addFFTAsset buf r).filterMap (emitOf FFT_abs cfg)).map
            (fun e => OutRec.fft e.1 e.2) ++ out, k + 1, ?_, ?_, ?_, ?_, ?_⟩
        · simp only [ingest, if_pos h, processFFT_spec FFT_abs cfg hb, hin]
        · simp [List.countP_cons, h, hk]
        · rw [List.filterMap_append, filterMap_passOf_map_fft, List.nil_append,
            hpass]
          simp [h]
        · intro r2 hmem
          rcases List.mem_append.mp hmem with h2 | h2
          · rcases List.mem_map.mp h2 with ⟨e, _, he⟩
            cases he
          · exact hpmem r2 h2
        · intro c r2 hmem
          rcases List.mem_append.mp hmem with h2 | h2
          · rcases List.mem_map.mp h2 with ⟨e, hemem, he⟩
            obtain ⟨hc, hr⟩ : e.1 = c ∧ e.2 = r2 := by
              cases he; exact ⟨rfl, rfl⟩
            subst hc; subst hr
            exact mem_filterMap_emitOf FFT_abs cfg _ e.1 e.2
              (by simpa using hemem)
          · exact hfft c r2 h2
      · obtain ⟨buf1, out, k, hin, hk, hpass, hpmem, hfft⟩ := ih buf
        refine ⟨buf1, OutRec.pass r :: out, k, ?_, ?_, ?_, ?_, ?_⟩
        · simp only [ingest, if_neg h, hin]
        · simp [List.countP_cons, h, hk]
        · simp [List.filterMap_cons, passOf, hpass, h]
        · intro r2 hmem
          rcases List.mem_cons.mp hmem with h2 | h2
          · cases h2; exact h
          · exact hpmem r2 h2
        · intro c r2 hmem
          rcases List.mem_cons.mp hmem with h2 | h2
          · cases h2
          · exact hfft c r2 h2

/-- Ledger behaviour of a whole ingest call: provided the band count is
nonzero, the window length is at least one, channel keys are distinct,
every channel starts strictly below the window length, and every
matching reading carries at most one eligible sample per channel, the
call succeeds, every channel ends strictly below the window length (so
no buffer ever exceeds the window length), and for every channel the
samples appended are accounted for exactly by whole emitted windows plus
the residue left in the buffer. -/
theorem ingest_ledger (FFT_abs : List ℚ → Nat → ℚ) (cfg : Config)
    (hb : cfg.bands ≠ 0) (hs : 1 ≤ cfg.samples) :
    ∀ (readings : List Reading) (buf : Buffer),
      (bufKeys buf).Nodup →
      (∀ c, bufSize c buf < cfg.samples) →
      (∀ r ∈ readings, r.assetName = cfg.asset → ∀ c, eligCount c r ≤ 1) →
      ∃ buf1 out k, ingest FFT_abs cfg buf readings = some (buf1, out, k) ∧
        (bufKeys buf1).Nodup ∧
        (∀ c, bufSize c buf1 < cfg.samples) ∧
        (∀ c, bufSize c buf + appended c cfg readings =
          fftEmissions c out * cfg.samples + bufSize c buf1) := by
  intro readings
  induction readings with
  | nil =>
      intro buf hnodup hinv _
      exact ⟨buf, [], 0, rfl, hnodup, hinv,
        fun c => by simp [appended, fftEmissions]⟩
  | cons r rest ih =>
      intro buf hnodup hinv hone
      by_cases h : r.assetName = cfg.asset
      · have hone1 : ∀ c, eligCount c r ≤ 1 :=
          hone r (List.mem_cons_self r rest) h
        have hnodup1 : (bufKeys (addFFTAsset buf r)).Nodup :=
          bufKeys_addFFTAsset_nodup buf r hnodup
        have hle1 : ∀ c, bufSize c (addFFTAsset buf r) ≤ cfg.samples := by
          intro c
          rw [bufSize_addFFTAsset]
          have := hinv c
          have := hone1 c
          omega
        have hnodup2 :
            (bufKeys ((addFFTAsset buf r).map (clearFull cfg))).Nodup := by
          rw [bufKeys_map_clearFull]; exact hnodup1
        have hinv2 : ∀ c,
            bufSize c ((addFFTAsset buf r).map (clearFull cfg)) < cfg.samples := by
          intro c
          rw [bufSize_map_clearFull cfg _ c hs]
          by_cases h2 : bufSize c (addFFTAsset buf r) = cfg.samples
          · rw [if_pos h2]; omega
          · rw [if_neg h2]
            have := hle1 c
            omega
        obtain ⟨buf1, out, k, hin, hnodup3, hinv3, hled⟩ :=
          ih ((addFFTAsset buf r).map (clearFull cfg)) hnodup2 hinv2
            (fun r2 hmem h2 => hone r2 (List.mem_cons_of_mem r hmem) h2)
        refine ⟨buf1,
          ((addFFTAsset buf r).filterMap (emitOf FFT_abs cfg)).map
            (fun e => OutRec.fft e.1 e.2) ++ out, k + 1, ?_, hnodup3, hinv3, ?_⟩
        · simp only [ingest, if_pos h, processFFT_spec FFT_abs cfg hb, hin]
        · intro c
          have hsz1 := bufSize_addFFTAsset buf r c
          have hsz2 := bufSize_map_clearFull cfg (addFFTAsset buf r) c hs
          have hemit := emitsFor_filterMap FFT_abs cfg c (addFFTAsset buf r)
            hnodup1 hs
          have hl := hled c
          rw [fftEmissions_map_fft_append, hemit]
          simp only [appended, if_pos h]
          by_cases h2 : bufSize c (addFFTAsset buf r) = cfg.samples
          · rw [if_pos h2]
            rw [if_pos h2] at hsz2
            rw [hsz2] at hl
            rw [Nat.add_mul, Nat.one_mul]
            omega
          · rw [if_neg h2]
            rw [if_neg h2] at hsz2
            rw [hsz2] at hl
            rw [Nat.add_mul]
            omega
      · obtain ⟨buf1, out, k, hin, hnodup1, hinv1, hledger⟩ :=
          ih buf hnodup hinv
            (fun r2 hmem h2 => hone r2 (List.mem_cons_of_mem r hmem) h2)
        refine ⟨buf1, OutRec.pass r :: out, k, ?_, hnodup1, hinv1, ?_⟩
        · simp only [ingest, if_neg h, hin]
        · intro c
          rw [fftEmissions_pass_cons]
          simp only [appended, if_neg h]
          have := hledger c
          omega

theorem bandFold (mag : Nat → ℚ) (a : Nat) (ha : 1 ≤ a) (first : Nat) :
    ∀ k : Nat,
      ((List.range' first k).foldl (bandStep a mag) initBandState).datapoints =
          (List.range (k / a)).map
            (fun b => (bandLabel b, bandMean mag first a b)) ∧
        ((List.range' first k).foldl (bandStep a mag) initBandState).cnt = k % a ∧
        ((List.range' first k).foldl (bandStep a mag) initBandState).band = k / a ∧
        ((List.range' first k).foldl (bandStep a mag) initBandState).sum =
          ∑ i ∈ Finset.range (k % a), mag (first + k / a * a + i) := by
  intro k
  induction k with
  | zero => simp [initBandState]
  | succ k ihk =>
      have hconcat : List.range' first (k + 1) =
          List.range' first k ++ [first + k] := by
        rw [List.range'_concat]; simp
      rw [hconcat, List.foldl_append, List.foldl_cons, List.foldl_nil]
      set s : BandState :=
        (List.range' first k).foldl (bandStep a mag) initBandState with hsdef
      obtain ⟨hdp, hcnt, hband, hsum⟩ := ihk
      have hdm : k / a * a + k % a = k := by
        rw [Nat.mul_comm]
        exact Nat.div_add_mod k a
      have hsumsucc : ∀ (base n : Nat),
          ∑ i ∈ Finset.range (n + 1), mag (base + i) =
            (∑ i ∈ Finset.range n, mag (base + i)) + mag (base + n) := by
        intro base n
        rw [Finset.sum_range_succ]
      by_cases hc : k % a + 1 = a
      · have hk1 : k + 1 = a * (k / a + 1) := by
          have h0 := Nat.div_add_mod k a
          rw [Nat.mul_add, Nat.mul_one]
          omega
        have hmod1 : (k + 1) % a = 0 := by
          rw [hk1]; exact Nat.mul_mod_right a _
        have hdiv1 : (k + 1) / a = k / a + 1 := by
          rw [hk1]; exact Nat.mul_div_cancel_left _ (by omega)
        have hstep : bandStep a mag s (first + k) =
            ⟨s.datapoints ++
              [(bandLabel s.band, (s.sum + mag (first + k)) / (a : ℚ))],
              0, 0, s.band + 1,
              if s.peak < mag (first + k) then mag (first + k) else s.peak,
              if s.peak < mag (first + k) then first + k else s.peakf⟩ := by
          simp only [bandStep]
          rw [hcnt, if_pos hc]
        rw [hstep]
        refine ⟨?_, ?_, ?_, ?_⟩
        · show s.datapoints ++
              [(bandLabel s.band, (s.sum + mag (first + k)) / (a : ℚ))] =
            (List.range ((k + 1) / a)).map
              (fun b => (bandLabel b, bandMean mag first a b))
          have hmod : k % a = a - 1 := by omega
          have hnum : s.sum + mag (first + k) =
              ∑ i ∈ Finset.range a, mag (first + k / a * a + i) := by
            have ha1 : a - 1 + 1 = a := by omega
            have hx := hsumsucc (first + k / a * a) (a - 1)
            rw [ha1] at hx
            rw [hx, hsum, hmod]
            have harg : first + k = first + k / a * a + (a - 1) := by omega
            rw [harg]
          have hval : (s.sum + mag (first + k)) / (a : ℚ) =
              bandMean mag first a (k / a) := by
            unfold bandMean
            rw [hnum]
          rw [hdiv1, List.range_succ, List.map_append, ← hdp, hband, hval]
          simp
        · show (0 : Nat) = (k + 1) % a
          rw [hmod1]
        · show s.band + 1 = (k + 1) / a
          rw [hdiv1, hband]
        · show (0 : ℚ) = ∑ i ∈ Finset.range ((k + 1) % a),
            mag (first + (k + 1) / a * a + i)
          rw [hmod1]
          simp
      · have hlt : k % a < a := Nat.mod_lt _ (by omega)
        have hlt1 : k % a + 1 < a := by omega
        have h0 : k + 1 = (k % a + 1) + a * (k / a) := by
          have := Nat.div_add_mod k a
          omega
        have hmod1 : (k + 1) % a = k % a + 1 := by
          rw [h0, Nat.add_mul_mod_self_left, Nat.mod_eq_of_lt hlt1]
        have hdiv1 : (k + 1) / a = k / a := by
          rw [h0, Nat.add_mul_div_left _ _ (show 0 < a by omega),
            Nat.div_eq_of_lt hlt1]
          omega
        have hstep : bandStep a mag s (first + k) =
            ⟨s.datapoints, s.sum + mag (first + k), k % a + 1, s.band,
              if s.peak < mag (first + k) then mag (first + k) else s.peak,
              if s.peak < mag (first + k) then first + k else s.peakf⟩ := by
          simp only [bandStep]
          rw [hcnt, if_neg hc]
        rw [hstep]
        refine ⟨?_, ?_, ?_, ?_⟩
        · show s.datapoints = (List.range ((k + 1) / a)).map
            (fun b => (bandLabel b, bandMean mag first a b))
          rw [hdiv1]; exact hdp
        · show k % a + 1 = (k + 1) % a
          rw [hmod1]
        · show s.band = (k + 1) / a
          rw [hdiv1]; exact hband
        · show s.sum + mag (first + k) = ∑ i ∈ Finset.range ((k + 1) % a),
            mag (first + (k + 1) / a * a + i)
          rw [hmod1, hdiv1, Finset.sum_range_succ, hsum]
          congr 2
          omega

theorem bandStep_labeled (a : Nat) (mag : Nat → ℚ) (s : BandState) (i : Nat)
    (h : labeledInv s) : labeledInv (bandStep a mag s i) := by
  obtain ⟨f, hf⟩ := h
  by_cases hc : s.cnt + 1 = a
  · have hdp : (bandStep a mag s i).datapoints =
        s.datapoints ++ [(bandLabel s.band, (s.sum + mag i) / (a : ℚ))] := by
      simp only [bandStep]
      rw [if_pos hc]
    have hb : (bandStep a mag s i).band = s.band + 1 := by
      simp only [bandStep]
      rw [if_pos hc]
    refine ⟨fun b => if b = s.band then (s.sum + mag i) / (a : ℚ) else f b, ?_⟩
    rw [hdp, hb, List.range_succ, List.map_append, hf]
    congr 1
    · apply List.map_congr_left
      intro b hb2
      have hlt : b < s.band := List.mem_range.mp hb2
      simp [Nat.ne_of_lt hlt]
    · simp
  · have hdp : (bandStep a mag s i).datapoints = s.datapoints := by
      simp only [bandStep]
      rw [if_neg hc]
    have hb : (bandStep a mag s i).band = s.band := by
      simp only [bandStep]
      rw [if_neg hc]
    exact ⟨f, by rw [hdp, hb, hf]⟩

theorem bandFold_labeled (a : Nat) (mag : Nat → ℚ) :
    ∀ (l : List Nat) (s : BandState), labeledInv s →
      labeledInv (l.foldl (bandStep a mag) s) := by
  intro l
  induction l with
  | nil => intro s h; exact h
  | cons i rest ih =>
      intro s h
      rw [List.foldl_cons]
      exact ih _ (bandStep_labeled a mag s i h)

theorem labeledInv_init : labeledInv initBandState :=
  ⟨fun _ => 0, by simp [initBandState]⟩

theorem labeled_names (s : BandState) (h : labeledInv s) :
    s.datapoints.map Prod.fst =
      (List.range s.datapoints.length).map bandLabel := by
  obtain ⟨f, hf⟩ := h
  rw [hf]
  simp [List.map_map, Function.comp]

theorem bandFold_congr (a : Nat) (mag1 mag2 : Nat → ℚ) :
    ∀ (l : List Nat) (s : BandState), (∀ i ∈ l, mag1 i = mag2 i) →
      l.foldl (bandStep a mag1) s = l.foldl (bandStep a mag2) s := by
  intro l
  induction l with
  | nil => intro s _; rfl
  | cons i rest ih =>
      intro s h
      rw [List.foldl_cons, List.foldl_cons]
      have h1 : mag1 i = mag2 i := h i (List.mem_cons_self i rest)
      rw [show bandStep a mag1 s i = bandStep a mag2 s i from by
        simp only [bandStep, h1]]
      exact ih _ (fun j hj => h j (List.mem_cons_of_mem i hj))

theorem bandFold_ave_zero (mag : Nat → ℚ) :
    ∀ (l : List Nat) (s : BandState),
      ((l.foldl (bandStep 0 mag) s).datapoints = s.datapoints ∧
        (l.foldl (bandStep 0 mag) s).band = s.band) := by
  intro l
  induction l with
  | nil => intro s; exact ⟨rfl, rfl⟩
  | cons i rest ih =>
      intro s
      rw [List.foldl_cons]
      have hstep : (bandStep 0 mag s i).datapoints = s.datapoints ∧
          (bandStep 0 mag s i).band = s.band := by
        have hc : ¬ (s.cnt + 1 = 0) := Nat.succ_ne_zero s.cnt
        constructor <;> (simp only [bandStep]; rw [if_neg hc])
      obtain ⟨h1, h2⟩ := ih (bandStep 0 mag s i)
      exact ⟨by rw [h1, hstep.1], by rw [h2, hstep.2]⟩

theorem bandRun_datapoints (mag : Nat → ℚ) (cfg : Config) (values : List ℚ)
    (ha : 1 ≤ aveSamplesOf cfg values) :
    (bandRun mag cfg values).datapoints =
      (List.range ((lastBin cfg values - firstBin cfg values) /
          aveSamplesOf cfg values)).map
        (fun b => (bandLabel b,
          bandMean mag (firstBin cfg values) (aveSamplesOf cfg values) b)) := by
  unfold bandRun
  exact (bandFold mag (aveSamplesOf cfg values) ha (firstBin cfg values)
    (lastBin cfg values - firstBin cfg values)).1

theorem bandRun_labeled (mag : Nat → ℚ) (cfg : Config) (values : List ℚ) :
    labeledInv (bandRun mag cfg values) := by
  unfold bandRun
  exact bandFold_labeled _ mag _ initBandState labeledInv_init

theorem bandRun_congr (mag1 mag2 : Nat → ℚ) (cfg : Config) (values : List ℚ)
    (h : ∀ i, firstBin cfg values ≤ i → i < lastBin cfg values →
      mag1 i = mag2 i) :
    bandRun mag1 cfg values = bandRun mag2 cfg values := by
  unfold bandRun
  apply bandFold_congr
  intro i hi
  obtain ⟨h1, h2⟩ := List.mem_range'_1.mp hi
  apply h i h1
  omega

theorem bandRun_ave_zero (mag : Nat → ℚ) (cfg : Config) (values : List ℚ)
    (h : aveSamplesOf cfg values = 0) :
    (bandRun mag cfg values).datapoints = [] := by
  unfold bandRun
  rw [h]
  exact (bandFold_ave_zero mag _ initBandState).1

theorem bufLookup_mem (c : String) (buf : Buffer) (vs : List ℚ)
    (h : bufLookup c buf = some vs) : (c, vs) ∈ buf := by
  induction buf with
  | nil => cases h
  | cons e rest ih =>
      obtain ⟨n, ws⟩ := e
      by_cases h2 : n = c
      · subst h2
        simp [bufLookup] at h
        rw [← h]
        exact List.mem_cons_self _ _
      · simp only [bufLookup, if_neg h2] at h
        exact List.mem_cons_of_mem _ (ih h)

theorem mem_bufLookup_nodup (c : String) (buf : Buffer) (vs : List ℚ)
    (hnodup : (bufKeys buf).Nodup) (h : (c, vs) ∈ buf) :
    bufLookup c buf = some vs := by
  induction buf with
  | nil => cases h
  | cons e rest ih =>
      obtain ⟨n, ws⟩ := e
      simp only [bufKeys, List.map_cons, List.nodup_cons] at hnodup
      obtain ⟨hn, hrest⟩ := hnodup
      rcases List.mem_cons.mp h with h2 | h2
      · obtain ⟨hc, hv⟩ : c = n ∧ vs = ws := by
          constructor
          · exact congrArg Prod.fst h2
          · exact congrArg Prod.snd h2
        subst hc; subst hv
        simp [bufLookup]
      · have hc : c ∈ List.map Prod.fst rest :=
          List.mem_map_of_mem Prod.fst h2
        have hnc : ¬ (n = c) := fun h3 => hn (h3 ▸ hc)
        simp only [bufLookup, if_neg hnc]
        exact ih (by simpa [bufKeys] using hrest) h2

/-- No band label is the (never emitted) peak-frequency label. -/
theorem bandLabel_ne_peak (b : Nat) : bandLabel b ≠ "Peak Fequency" := by
  have hb1 : "Band 0".data = ['B', 'a', 'n', 'd', ' ', '0'] := rfl
  have hb2 : "Band ".data = ['B', 'a', 'n', 'd', ' '] := rfl
  have hp : "Peak Fequency".data =
      ['P', 'e', 'a', 'k', ' ', 'F', 'e', 'q', 'u', 'e', 'n', 'c', 'y'] := rfl
  unfold bandLabel
  split <;> intro h <;> have h2 := congrArg String.data h <;>
    rw [String.data_append] at h2
  · rw [hb1, hp] at h2
    simp only [List.cons_append] at h2
    injection h2 with h3 h4
    exact absurd h3 (by decide)
  · rw [hb2, hp] at h2
    simp only [List.cons_append] at h2
    injection h2 with h3 h4
    exact absurd h3 (by decide)

/-- C1 counterexample: with bands = 3, lowPass = 13, highPass = 25 over a
16-sample window the trimmed range holds 5 bins and aveSamples = 1 >= 1,
yet the emitted record carries 5 band fields, not bandCount = 3: the
summarizer emits one band per aveSamples bins over the whole trimmed
range, which exceeds bandCount whenever the range is not an exact
multiple. -/
theorem C1_counterexample :
    1 ≤ aveSamplesOf cfgC1 valsC1 ∧
    (runFFT magZero cfgC1 "x" valsC1).isSome = true ∧
    ((runFFT magZero cfgC1 "x" valsC1).getD ⟨"", []⟩).readingData.length = 5 ∧
    cfgC1.bands = 3 := by decide

/-- C1 (amended): for every configuration and window with a nonzero band
count and aveSamples = (last - first) / bandCount at least 1, runFFT
emits exactly floor((last - first) / aveSamples) band fields — at least
bandCount, but more when (last - first) is not an exact multiple — the
b-th field holding the arithmetic mean of the magnitudes of the
aveSamples consecutive trimmed bins starting at first + b * aveSamples;
remainder bins after the last complete group contribute to no band. -/
theorem C1_band_partition (FFT_abs : List ℚ → Nat → ℚ) (cfg : Config)
    (dpName : String) (values : List ℚ) (hb : cfg.bands ≠ 0)
    (ha : 1 ≤ aveSamplesOf cfg values) :
    ∃ r : Reading, runFFT FFT_abs cfg dpName values = some r ∧
      r.readingData.length =
        (lastBin cfg values - firstBin cfg values) / aveSamplesOf cfg values ∧
      cfg.bands ≤ r.readingData.length ∧
      r.readingData =
        (List.range ((lastBin cfg values - firstBin cfg values) /
            aveSamplesOf cfg values)).map
          (fun b => ⟨bandLabel b,
            DatapointValue.T_FLOAT (bandMean (FFT_abs values)
              (firstBin cfg values) (aveSamplesOf cfg values) b)⟩) := by
  have hdata : (mkFFTReading FFT_abs cfg values).readingData =
      (List.range ((lastBin cfg values - firstBin cfg values) /
          aveSamplesOf cfg values)).map
        (fun b => ⟨bandLabel b,
          DatapointValue.T_FLOAT (bandMean (FFT_abs values)
            (firstBin cfg values) (aveSamplesOf cfg values) b)⟩) := by
    unfold mkFFTReading
    rw [bandRun_datapoints (FFT_abs values) cfg values ha, List.map_map]
    rfl
  have hlen : (mkFFTReading FFT_abs cfg values).readingData.length =
      (lastBin cfg values - firstBin cfg values) / aveSamplesOf cfg values := by
    rw [hdata, List.length_map, List.length_range]
  have hge : cfg.bands ≤
      (lastBin cfg values - firstBin cfg values) / aveSamplesOf cfg values := by
    rw [Nat.le_div_iff_mul_le (by omega), Nat.mul_comm]
    exact Nat.div_mul_le_self _ _
  exact ⟨mkFFTReading FFT_abs cfg values, by simp [runFFT, hb], hlen,
    by rw [hlen]; exact hge, hdata⟩

/-- C1 witness: the amended statement at the counterexample
configuration, where 5 bands are emitted. -/
theorem C1_band_partition_witness :
    (cfgC1.bands ≠ 0 ∧ 1 ≤ aveSamplesOf cfgC1 valsC1) ∧
    (∃ r : Reading, runFFT magZero cfgC1 "x" valsC1 = some r ∧
      r.readingData.length =
        (lastBin cfgC1 valsC1 - firstBin cfgC1 valsC1) /
          aveSamplesOf cfgC1 valsC1 ∧
      cfgC1.bands ≤ r.readingData.length ∧
      r.readingData =
        (List.range ((lastBin cfgC1 valsC1 - firstBin cfgC1 valsC1) /
            aveSamplesOf cfgC1 valsC1)).map
          (fun b => ⟨bandLabel b,
            DatapointValue.T_FLOAT (bandMean (magZero valsC1)
              (firstBin cfgC1 valsC1) (aveSamplesOf cfgC1 valsC1) b)⟩)) :=
  ⟨⟨by decide, by decide⟩,
    C1_band_partition magZero cfgC1 "x" valsC1 (by decide) (by decide)⟩

/-- C2: under a valid configuration (nonzero band count, window length at
least 1), with distinct channel keys, every channel strictly below the
window length, and each matching record carrying at most one eligible
sample per channel (records are field-name maps at the interface), an
ingest call succeeds, leaves every channel buffer strictly below the
window length — so no buffer ever exceeds the window length between
ingest calls — and for every channel the number of emitted Band Summary
records accounts exactly for the samples appended: initial + appended =
emissions * samples + final, with final < samples, i.e. one emission per
exactly samples appended values. -/
theorem C2_window_trigger (FFT_abs : List ℚ → Nat → ℚ) (cfg : Config)
    (readings : List Reading) (buf : Buffer)
    (hb : cfg.bands ≠ 0) (hs : 1 ≤ cfg.samples)
    (hnodup : (bufKeys buf).Nodup)
    (hinv : ∀ c, bufSize c buf < cfg.samples)
    (hone : ∀ r ∈ readings, r.assetName = cfg.asset →
      ∀ c, eligCount c r ≤ 1) :
    ∃ buf1 out k, ingest FFT_abs cfg buf readings = some (buf1, out, k) ∧
      (∀ c, bufSize c buf1 < cfg.samples) ∧
      (∀ c, bufSize c buf + appended c cfg readings =
        fftEmissions c out * cfg.samples + bufSize c buf1) := by
  obtain ⟨buf1, out, k, h1, _, h3, h4⟩ :=
    ingest_ledger FFT_abs cfg hb hs readings buf hnodup hinv hone
  exact ⟨buf1, out, k, h1, h3, h4⟩

/-- C2 witness: two matching one-sample readings under window length 2
fill channel x and produce exactly one emission with an empty residue. -/
theorem C2_window_trigger_witness :
    (cfgC2.bands ≠ 0 ∧ 1 ≤ cfgC2.samples) ∧
    (∃ buf1 out k,
      ingest magZero cfgC2 [] [rdA1, rdA2] = some (buf1, out, k) ∧
      (∀ c, bufSize c buf1 < cfgC2.samples) ∧
      (∀ c, bufSize c ([] : Buffer) + appended c cfgC2 [rdA1, rdA2] =
        fftEmissions c out * cfgC2.samples + bufSize c buf1)) :=
  ⟨⟨by decide, by decide⟩,
    C2_window_trigger magZero cfgC2 [rdA1, rdA2] [] (by decide) (by decide)
      (by simp [bufKeys])
      (fun c => by simp [bufSize, bufLookup]; decide)
      (fun r hr hm c => by
        rcases List.mem_cons.mp hr with h | h
        · rw [h]
          exact List.countP_le_length _
        · rcases List.mem_cons.mp h with h2 | h2
          · rw [h2]
            exact List.countP_le_length _
          · cases h2)⟩

/-- C3 falsified (code bug): handleConfig performs no validation, so a
band count of 0 is accepted at reconfiguration time, and the next full
window reaches the integer division by zero in runFFT (undefined
behaviour, modelled as none): the ingest call crashes instead of the
configuration having been rejected. -/
theorem C3_band_zero_not_rejected :
    (handleConfig cfgPrior rcBands0).bands = 0 ∧
    runFFT magZero (handleConfig cfgPrior rcBands0) "x" valsC1 = none ∧
    ingest magZero (handleConfig cfgPrior rcBands0)
      [("x", List.replicate 15 (0 : ℚ))] [mkRd "A" "x" 0] = none := by
  decide

/-- C4 falsified (code bug): strtol on a non-numeric bands value returns
0, so handleConfig silently stores 0 — neither the prior value 5 nor any
documented default — and the next full window crashes the ingest path
through the division by zero of runFFT (modelled as none). -/
theorem C4_non_numeric_no_fallback :
    strtol "junk" = 0 ∧
    (handleConfig cfgPrior2 rcJunk).bands = 0 ∧
    ¬ ((handleConfig cfgPrior2 rcJunk).bands = cfgPrior2.bands) ∧
    ingest magZero (handleConfig cfgPrior2 rcJunk)
      [("x", [0, 0, 0])] [mkRd "A" "x" 0] = none := by
  decide

/-- C5: under a configuration whose band count is nonzero (so the
undefined-behaviour path is not reached), every ingest call forwards the
readings whose asset name differs from the monitored asset unchanged and
in their input order — the pass-through part of the output is exactly the
filter of the input batch — and a reading whose asset name matches the
monitored asset never appears unmodified in the output. -/
theorem C5_passthrough (FFT_abs : List ℚ → Nat → ℚ) (cfg : Config)
    (buf : Buffer) (readings : List Reading) (hb : cfg.bands ≠ 0) :
    ∃ buf1 out k, ingest FFT_abs cfg buf readings = some (buf1, out, k) ∧
      out.filterMap passOf =
        readings.filter (fun r => !(r.assetName == cfg.asset)) ∧
      (∀ r : Reading, OutRec.pass r ∈ out → ¬ (r.assetName = cfg.asset)) := by
  obtain ⟨buf1, out, k, h1, _, h3, h4, _⟩ :=
    ingest_structure FFT_abs cfg hb readings buf
  exact ⟨buf1, out, k, h1, h3, h4⟩

/-- C5 witness: a batch holding a non-matching and a matching reading. -/
theorem C5_passthrough_witness :
    (cfgC8.bands ≠ 0) ∧
    (∃ buf1 out k,
      ingest magZero cfgC8 [] [rdB, rdA1] = some (buf1, out, k) ∧
      out.filterMap passOf =
        [rdB, rdA1].filter (fun r => !(r.assetName == cfgC8.asset)) ∧
      (∀ r : Reading, OutRec.pass r ∈ out → ¬ (r.assetName = cfgC8.asset))) :=
  ⟨by decide, C5_passthrough magZero cfgC8 [] [rdB, rdA1] (by decide)⟩

/-- C6: under a configuration whose band count is nonzero, every FFT
reading an ingest call emits has asset name equal to the monitored asset
followed by " FFT", its fields are, in order, exactly the band fields
labelled by bandLabel 0, 1, ... (the snprintf "Band %02d" zero-padded
two-digit scheme starting at 0), and no field is the peak-frequency
field, although the banding loop computes the peak bin index
(BandState.peakf). -/
theorem C6_emitted_record_shape (FFT_abs : List ℚ → Nat → ℚ) (cfg : Config)
    (buf : Buffer) (readings : List Reading) (hb : cfg.bands ≠ 0) :
    ∃ buf1 out k, ingest FFT_abs cfg buf readings = some (buf1, out, k) ∧
      ∀ (c : String) (r : Reading), OutRec.fft c r ∈ out →
        r.assetName = cfg.asset ++ " FFT" ∧
        r.readingData.map Datapoint.name =
          (List.range r.readingData.length).map bandLabel ∧
        (∀ dp ∈ r.readingData, dp.name ≠ "Peak Fequency") := by
  obtain ⟨buf1, out, k, h1, _, _, _, hfft⟩ :=
    ingest_structure FFT_abs cfg hb readings buf
  refine ⟨buf1, out, k, h1, ?_⟩
  intro c r hmem
  obtain ⟨vs, _, hr⟩ := hfft c r hmem
  subst hr
  have hnames : (mkFFTReading FFT_abs cfg vs).readingData.map Datapoint.name =
      (List.range (mkFFTReading FFT_abs cfg vs).readingData.length).map
        bandLabel := by
    unfold mkFFTReading
    rw [List.map_map, List.length_map]
    exact labeled_names _ (bandRun_labeled (FFT_abs vs) cfg vs)
  refine ⟨rfl, hnames, ?_⟩
  intro dp hdp
  have hmemname : dp.name ∈
      (mkFFTReading FFT_abs cfg vs).readingData.map Datapoint.name :=
    List.mem_map_of_mem Datapoint.name hdp
  rw [hnames] at hmemname
  obtain ⟨b, _, hb2⟩ := List.mem_map.mp hmemname
  rw [← hb2]
  exact bandLabel_ne_peak b

/-- C6 witness: channel x fills its 2-sample window and the emitted
record is checked against the shape property. -/
theorem C6_emitted_record_shape_witness :
    (cfgC2.bands ≠ 0) ∧
    (∃ buf1 out k,
      ingest magZero cfgC2 [("x", [5])] [rdA1] = some (buf1, out, k) ∧
      ∀ (c : String) (r : Reading), OutRec.fft c r ∈ out →
        r.assetName = cfgC2.asset ++ " FFT" ∧
        r.readingData.map Datapoint.name =
          (List.range r.readingData.length).map bandLabel ∧
        (∀ dp ∈ r.readingData, dp.name ≠ "Peak Fequency")) :=
  ⟨by decide, C6_emitted_record_shape magZero cfgC2 [("x", [5])] [rdA1]
    (by decide)⟩

/-- C7: the banding loop operates only on the one-sided spectrum of
N = W/2 bins trimmed to [first, last) with first = lowPass * N / 100 and
last = N - highPass * N / 100: whenever two per-bin magnitude functions
agree on [first, last), the entire summarizer state — band datapoints,
peak magnitude and peak bin index included — is identical, so bins
outside the range contribute to no band and are never considered for the
peak. -/
theorem C7_trim_range (mag1 mag2 : Nat → ℚ) (cfg : Config)
    (values : List ℚ)
    (h : ∀ i, firstBin cfg values ≤ i → i < lastBin cfg values →
      mag1 i = mag2 i) :
    bandRun mag1 cfg values = bandRun mag2 cfg values ∧
    n_outputs values = values.length / 2 ∧
    firstBin cfg values = cfg.lowPass * (values.length / 2) / 100 ∧
    lastBin cfg values =
      values.length / 2 - cfg.highPass * (values.length / 2) / 100 :=
  ⟨bandRun_congr mag1 mag2 cfg values h, rfl, rfl, rfl⟩

/-- C7 witness: on an 8-sample window with 25% low trim, a magnitude
function nonzero only at the trimmed-away bin 0 yields the same
summarizer state as the zero magnitude function. -/
theorem C7_trim_range_witness :
    bandRun magZeroBin cfgC7 valsC7 = bandRun magIndicator cfgC7 valsC7 := by
  have h : ∀ i, firstBin cfgC7 valsC7 ≤ i → i < lastBin cfgC7 valsC7 →
      magZeroBin i = magIndicator i := by
    intro i h1 h2
    have h3 : firstBin cfgC7 valsC7 = 1 := by decide
    rw [h3] at h1
    unfold magZeroBin magIndicator
    rw [if_neg (by omega)]
  exact (C7_trim_range magZeroBin magIndicator cfgC7 valsC7 h).1

/-- C8 counterexample: a batch with two matching readings triggers the
Window Processor (processFFT) twice during the ingest call, not exactly
once: the trigger runs after each matching reading, not once after all
samples of the batch have been appended. -/
theorem C8_counterexample :
    ingest magZero cfgC8 [] [rdA1, rdA2] = some ([("x", [1, 2])], [], 2) ∧
    (2 : Nat) ≠ 1 := by decide

/-- C8 (amended): the Window Processor is triggered once per matching
reading, immediately after that reading's samples are appended and
before the call returns — so the number of processFFT invocations of an
ingest call equals the number of readings matching the monitored asset,
not one per call. -/
theorem C8_trigger_count (FFT_abs : List ℚ → Nat → ℚ) (cfg : Config)
    (buf : Buffer) (readings : List Reading) (hb : cfg.bands ≠ 0) :
    ∃ buf1 out k, ingest FFT_abs cfg buf readings = some (buf1, out, k) ∧
      k = readings.countP (fun r => r.assetName == cfg.asset) := by
  obtain ⟨buf1, out, k, h1, h2, _, _, _⟩ :=
    ingest_structure FFT_abs cfg hb readings buf
  exact ⟨buf1, out, k, h1, h2⟩

/-- C8 witness: a batch with one non-matching and one matching reading
triggers processFFT exactly once. -/
theorem C8_trigger_count_witness :
    (cfgC8.bands ≠ 0) ∧
    (∃ buf1 out k,
      ingest magZero cfgC8 [] [rdB, rdA1] = some (buf1, out, k) ∧
      k = [rdB, rdA1].countP (fun r => r.assetName == cfgC8.asset)) :=
  ⟨by decide, C8_trigger_count magZero cfgC8 [] [rdB, rdA1] (by decide)⟩

/-- C9: a reconfiguration leaves every channel buffer untouched
(handleConfig assigns only configuration members), and under the new
configuration a channel with distinct keys is drained — emitting the
reading built over its entire buffered window — exactly when its buffer
length equals the new window length, so the transformed window has the
new length. -/
theorem C9_reconfigure_frame (FFT_abs : List ℚ → Nat → ℚ)
    (st : FilterState) (rc : RawConfig)
    (hb : (reconfigure st rc).cfg.bands ≠ 0)
    (hnodup : (bufKeys (reconfigure st rc).buffer).Nodup) :
    (reconfigure st rc).buffer = st.buffer ∧
    ∃ buf1 outs,
      processFFT FFT_abs (reconfigure st rc).cfg (reconfigure st rc).buffer =
        some (buf1, outs) ∧
      ∀ (c : String) (vs : List ℚ),
        bufLookup c (reconfigure st rc).buffer = some vs →
        (((c, mkFFTReading FFT_abs (reconfigure st rc).cfg vs) ∈ outs) ↔
          vs.length = (reconfigure st rc).cfg.samples) := by
  refine ⟨rfl, _, _,
    processFFT_spec FFT_abs (reconfigure st rc).cfg hb
      (reconfigure st rc).buffer, ?_⟩
  intro c vs hlook
  constructor
  · intro hmem
    rcases List.mem_filterMap.mp hmem with ⟨e, hemem, he⟩
    obtain ⟨n, ws⟩ := e
    by_cases h2 : ws.length = (reconfigure st rc).cfg.samples
    · rw [emitOf_pos _ _ _ _ h2] at he
      have hn : n = c := by
        have := congrArg Prod.fst (Option.some.inj he)
        exact this
      subst hn
      have hws : bufLookup n (reconfigure st rc).buffer = some ws :=
        mem_bufLookup_nodup n _ ws hnodup hemem
      rw [hlook] at hws
      rw [Option.some.inj hws]
      exact h2
    · rw [emitOf_neg _ _ _ _ h2] at he
      cases he
  · intro hlen
    exact List.mem_filterMap.mpr
      ⟨(c, vs), bufLookup_mem c _ vs hlook, emitOf_pos _ _ _ _ hlen⟩

/-- C9 witness: shrinking the window from 8 to 4 while channel x holds 3
samples: the buffer survives unchanged, and the 3-sample channel is not
drained (3 is not the new window length 4). -/
theorem C9_reconfigure_frame_witness :
    ((reconfigure stC9 rcC9).cfg.samples = 4 ∧ stC9.cfg.samples = 8) ∧
    ((reconfigure stC9 rcC9).buffer = stC9.buffer ∧
    ∃ buf1 outs,
      processFFT magZero (reconfigure stC9 rcC9).cfg
        (reconfigure stC9 rcC9).buffer = some (buf1, outs) ∧
      ∀ (c : String) (vs : List ℚ),
        bufLookup c (reconfigure stC9 rcC9).buffer = some vs →
        (((c, mkFFTReading magZero (reconfigure stC9 rcC9).cfg vs) ∈ outs) ↔
          vs.length = (reconfigure stC9 rcC9).cfg.samples)) :=
  ⟨⟨by decide, by decide⟩,
    C9_reconfigure_frame magZero stC9 rcC9 (by decide) (by decide)⟩

/-- C10 counterexample: with band count 0 a full channel buffer does not
lead to an emitted record at all — processFFT reaches the division by
zero of runFFT (undefined behaviour, modelled as none) — so the record is
not pushed unconditionally whenever a buffer reaches the window
length. -/
theorem C10_counterexample :
    processFFT magZero cfgBands0 [("x", [1, 2])] = none ∧
    bufSize "x" [("x", [1, 2])] = cfgBands0.samples := by decide

/-- C10 (amended): whenever the band count is nonzero and a channel
buffer reaches the window length, processFFT pushes the derived reading
unconditionally, and when aveSamples is 0 (more bands requested than
trimmed bins) the emitted reading carries zero band fields rather than
being suppressed. -/
theorem C10_emit_even_empty (FFT_abs : List ℚ → Nat → ℚ) (cfg : Config)
    (buf : Buffer) (c : String) (vs : List ℚ) (hb : cfg.bands ≠ 0)
    (hlook : bufLookup c buf = some vs) (hlen : vs.length = cfg.samples) :
    ∃ buf1 outs, processFFT FFT_abs cfg buf = some (buf1, outs) ∧
      (c, mkFFTReading FFT_abs cfg vs) ∈ outs ∧
      (aveSamplesOf cfg vs = 0 →
        (mkFFTReading FFT_abs cfg vs).readingData = []) := by
  refine ⟨_, _, processFFT_spec FFT_abs cfg hb buf, ?_, ?_⟩
  · exact List.mem_filterMap.mpr
      ⟨(c, vs), bufLookup_mem c buf vs hlook, emitOf_pos _ _ _ _ hlen⟩
  · intro h0
    simp [mkFFTReading, bandRun_ave_zero _ _ _ h0]

/-- C10 witness: 10 bands requested of a 4-sample window leave
aveSamples = 0, yet the full channel still emits a reading, with zero
band fields. -/
theorem C10_emit_even_empty_witness :
    (cfgC10w.bands ≠ 0 ∧ aveSamplesOf cfgC10w [1, 2, 3, 4] = 0) ∧
    (∃ buf1 outs,
      processFFT magZero cfgC10w [("x", [1, 2, 3, 4])] = some (buf1, outs) ∧
      (("x", mkFFTReading magZero cfgC10w [1, 2, 3, 4])) ∈ outs ∧
      (aveSamplesOf cfgC10w [1, 2, 3, 4] = 0 →
        (mkFFTReading magZero cfgC10w [1, 2, 3, 4]).readingData = [])) :=
  ⟨⟨by decide, by decide⟩,
    C10_emit_even_empty magZero cfgC10w [("x", [1, 2, 3, 4])] "x"
      [1, 2, 3, 4] (by decide) (by decide) (by decide)⟩

